import Mathlib

/-!
A shallow embedding of the IDA-style parity erasure code of `parity.hpp` /
`utility.hpp` (namespace `parity`, functions `ida_properties`, `encode_1`,
`decode`, and the byte-cast helpers of `ut`).

Modelling choices:
* A byte is a natural number (the values used are < 256; bitwise XOR never
  enlarges them).  A chunk (the C++ `UIntT` value of `sizeof(UIntT) = W`
  bytes) is modelled by its in-memory byte representation, a `List Byte` of
  length `W`; `UIntT`'s `^` is then pointwise `Nat.xor` on the bytes, which
  is exact for any fixed-width unsigned integer on any endianness.
* A slice buffer is modelled from the cursor the caller passes in: the
  content written by `encode_1` behind pointer `slices[i]` is a growing
  `List Byte`, and the pointer advance performed by the C++ code equals the
  length of that list.  On the `decode` side a slice is the byte sequence
  from the passed cursor onwards, and advancing the pointer is dropping a
  prefix; the updated slice list is returned together with the output.
* An absent slice (`nullptr`) is `none`.
* C++ behaviour that is undefined is made explicit as an error value:
  `divByZero` for the division by zero in `ida_properties` when
  `n * W = 0`, `nullDeref` for reading a chunk through a null slice
  pointer, `oobRead` for a `memcpy` that reads past the end of a buffer.
  The error values `invalidParameter`, `multipleMissingSlices` and
  `lengthMismatch` named by the specification are provided in the same
  error type so that statements about them can be made; the embedded code
  decides which (if any) of the errors actually occur.
-/

namespace Parity

/-- A byte value (C++ `std::byte`). -/
abbrev Byte := Nat

/-- Bitwise XOR of two chunk representations, pointwise on bytes.  This is
`UIntT`'s `^` seen through the byte representation. -/
def chunkXor (a b : List Byte) : List Byte := List.zipWith (· ^^^ ·) a b

/-- The zero chunk `UIntT parity = {}`: `W` zero bytes. -/
def zeroChunk (W : Nat) : List Byte := List.replicate W 0

/-- The errors / undefined behaviours distinguished by the development.  The
first three are the error classes named by the specification; the last three
mark the undefined behaviours the C++ source can actually reach. -/
inductive CodecError where
  | invalidParameter
  | multipleMissingSlices
  | lengthMismatch
  | divByZero
  | nullDeref
  | oobRead
deriving Repr, DecidableEq

/-- `parity::ida_properties_t`: number of full rounds and whether a single
additional (partial) round is written. -/
structure ida_properties_t where
  full_rounds : Nat
  partial_round : Bool
deriving Repr, DecidableEq

/-- `ida_properties_t::num_chunks`: `full_rounds + partial_round`. -/
def ida_properties_t.num_chunks (p : ida_properties_t) : Nat :=
  p.full_rounds + (if p.partial_round then 1 else 0)

/-- `parity::ida_properties`: `s / round_size` full rounds and a partial
round iff `s % round_size ≠ 0`, where `round_size = n * W`.  The C++ code
performs these divisions unconditionally; when `round_size = 0` it divides
by zero, which is undefined behaviour, modelled as `divByZero`. -/
def ida_properties (input : List Byte) (W n : Nat) :
    Except CodecError ida_properties_t :=
  let s := input.length
  let round_size := n * W
  if round_size = 0 then .error .divByZero
  else .ok ⟨s / round_size, decide (s % round_size ≠ 0)⟩

/-- The inner loop of a full round of `encode_1` (parity.hpp lines 126-138),
processing each remaining data slice: read a `W`-byte chunk from the input,
append it to the slice (`to_bytes_cast` plus pointer advance), XOR it into
the parity accumulator, and advance the input cursor by `W`.  Returns the
remaining input, the final accumulator, and the updated data slices. -/
def fullRoundAux (W : Nat) (inp : List Byte) (parity : List Byte) :
    List (List Byte) → List Byte × List Byte × List (List Byte)
  | [] => (inp, parity, [])
  | s :: rest =>
    let chunk := inp.take W
    let r := fullRoundAux W (inp.drop W) (chunkXor parity chunk) rest
    (r.1, r.2.1, (s ++ chunk) :: r.2.2)

/-- The inner loop of the partial round of `encode_1` (parity.hpp lines
150-161): each chunk reads `size_chunk = min (remaining) W` bytes, zero-pads
them to `W` bytes (`from_bytes_cast_padded`), writes the full `W`-byte chunk
to the slice, XORs it into the accumulator, and advances the input cursor by
`size_chunk` only. -/
def partialRoundAux (W : Nat) (inp : List Byte) (parity : List Byte) :
    List (List Byte) → List Byte × List Byte × List (List Byte)
  | [] => (inp, parity, [])
  | s :: rest =>
    let size_chunk := min inp.length W
    let chunk := inp.take size_chunk ++ List.replicate (W - size_chunk) 0
    let r := partialRoundAux W (inp.drop size_chunk) (chunkXor parity chunk) rest
    (r.1, r.2.1, (s ++ chunk) :: r.2.2)

/-- The loop over the full rounds of `encode_1` (parity.hpp lines 122-144):
each round runs `fullRoundAux` with a zero accumulator and then appends the
accumulator to the parity slice.  Returns the remaining input, the data
slices, and the parity slice. -/
def encodeRounds (W : Nat) : Nat → List Byte → List (List Byte) → List Byte →
    List Byte × List (List Byte) × List Byte
  | 0, inp, ds, par => (inp, ds, par)
  | r + 1, inp, ds, par =>
    let step := fullRoundAux W inp (zeroChunk W) ds
    encodeRounds W r step.1 step.2.2 (par ++ step.2.1)

/-- `parity::encode_1`: compute the properties, run all full rounds, then
the partial round if required.  The result is the properties together with
the `n + 1` slice contents (data slices `0 .. n-1`, then the parity
slice). -/
def encode_1 (W n : Nat) (input : List Byte) :
    Except CodecError (ida_properties_t × List (List Byte)) :=
  match ida_properties input W n with
  | .error e => .error e
  | .ok p =>
    let full := encodeRounds W p.full_rounds input (List.replicate n []) []
    if p.partial_round then
      let part := partialRoundAux W full.1 (zeroChunk W) full.2.1
      .ok (p, part.2.2 ++ [full.2.2 ++ part.2.1])
    else
      .ok (p, full.2.1 ++ [full.2.2])

/-- Reading one `W`-byte chunk from a slice cursor (`from_bytes_cast` /
`memcpy` of `sizeof(UIntT)` bytes plus the pointer advance).  Reading
through a null pointer is `nullDeref`; reading past the end of the slice
buffer is `oobRead`.  Both are undefined behaviour in the C++ source. -/
def readChunk (W : Nat) : Option (List Byte) →
    Except CodecError (List Byte × List Byte)
  | none => .error .nullDeref
  | some l => if l.length < W then .error .oobRead else .ok (l.take W, l.drop W)

/-- One round of the pass-through branch of `decode` (parity.hpp lines
192-196): copy one chunk from every data slice, in order, to the output. -/
def passRound (W : Nat) : List (Option (List Byte)) →
    Except CodecError (List (Option (List Byte)) × List Byte)
  | [] => .ok ([], [])
  | s :: rest => do
    let c ← readChunk W s
    let r ← passRound W rest
    .ok (some c.2 :: r.1, c.1 ++ r.2)

/-- The round loop of the pass-through branch of `decode` (parity.hpp lines
191-197). -/
def passRounds (W : Nat) : Nat → List (Option (List Byte)) →
    Except CodecError (List (Option (List Byte)) × List Byte)
  | 0, ds => .ok (ds, [])
  | r + 1, ds => do
    let s ← passRound W ds
    let t ← passRounds W r s.1
    .ok (t.1, s.2 ++ t.2)

/-- One copy-and-cancel scan of the reconstruction branch of `decode`
(parity.hpp lines 210-216 and 225-231): read a chunk from each listed slice,
write it to the output, and XOR it into the recovery accumulator. -/
def scanChunks (W : Nat) (acc : List Byte) : List (Option (List Byte)) →
    Except CodecError (List Byte × List (Option (List Byte)) × List Byte)
  | [] => .ok (acc, [], [])
  | s :: rest => do
    let c ← readChunk W s
    let r ← scanChunks W (chunkXor acc c.1) rest
    .ok (r.1, some c.2 :: r.2.1, c.1 ++ r.2.2)

/-- One round of the reconstruction branch of `decode` (parity.hpp lines
203-235): read the parity chunk; scan slices `0 .. m-1`; reserve the output
position of slot `m`; scan slices `m+1 .. n-1`; write the final accumulator
into the reserved position.  Returns the updated slice cursors (the absent
slot `m` untouched) and the output of this round. -/
def reconRound (W n m : Nat) (slices : List (Option (List Byte))) :
    Except CodecError (List (Option (List Byte)) × List Byte) := do
  let pc ← readChunk W (slices.getD n none)
  let pre ← scanChunks W pc.1 ((slices.take n).take m)
  let post ← scanChunks W pre.1 ((slices.take n).drop (m + 1))
  .ok (pre.2.1 ++ [slices.getD m none] ++ post.2.1 ++ [some pc.2],
       pre.2.2 ++ post.1 ++ post.2.2)

/-- The round loop of the reconstruction branch of `decode`. -/
def reconRounds (W n m : Nat) : Nat → List (Option (List Byte)) →
    Except CodecError (List (Option (List Byte)) × List Byte)
  | 0, ss => .ok (ss, [])
  | r + 1, ss => do
    let s ← reconRound W n m ss
    let t ← reconRounds W n m r s.1
    .ok (t.1, s.2 ++ t.2)

/-- `parity::decode`: find the first absent slice among the `n + 1` slice
entries (`std::find` for `nullptr`); if its index is `≥ n` run the
pass-through branch over the `n` data slices (the parity slice is never
read), otherwise reconstruct the missing data slice.  Returns the updated
slice cursors and the decoded output. -/
def decode (W n : Nat) (slices : List (Option (List Byte))) (chunks : Nat) :
    Except CodecError (List (Option (List Byte)) × List Byte) :=
  let missing_idx := slices.findIdx (fun s => s.isNone)
  if n ≤ missing_idx then do
    let r ← passRounds W chunks (slices.take n)
    .ok (r.1 ++ slices.drop n, r.2)
  else
    reconRounds W n missing_idx chunks slices

/-!  Specification-level characterisation of the encoding.  A round-`r`
chunk of data slice `i` is the `W`-byte zero-padded window of the input at
offset `r * (n * W) + i * W`; a slice is the concatenation of its chunks
over the rounds, and the parity slice concatenates the XOR of each round's
chunks.  These definitions exist only to state and prove the lemmas; the
functions above are the embedding of the source. -/

/-- The `W`-byte chunk read at the front of `l`, zero-padded when fewer
than `W` bytes remain. -/
def padChunk (W : Nat) (l : List Byte) : List Byte :=
  l.take W ++ List.replicate (W - l.length) 0

/-- The unpadded (`from_bytes_cast`) chunks of `k` consecutive windows. -/
def takeChunksOf (W : Nat) (inp : List Byte) : Nat → List (List Byte)
  | 0 => []
  | k + 1 => inp.take W :: takeChunksOf W (inp.drop W) k

/-- The zero-padded chunks of `k` consecutive `W`-byte windows of `inp`. -/
def padChunksOf (W : Nat) (inp : List Byte) : Nat → List (List Byte)
  | 0 => []
  | k + 1 => padChunk W inp :: padChunksOf W (inp.drop W) k

/-- The contents of the `n` data slices after `R` rounds of encoding. -/
def specData (W n : Nat) (inp : List Byte) : Nat → List (List Byte)
  | 0 => List.replicate n []
  | R + 1 =>
    List.zipWith (fun c s => c ++ s) (padChunksOf W inp n)
      (specData W n (inp.drop (n * W)) R)

/-- The contents of the parity slice after `R` rounds of encoding. -/
def specParity (W n : Nat) (inp : List Byte) : Nat → List Byte
  | 0 => []
  | R + 1 =>
    (padChunksOf W inp n).foldl chunkXor (zeroChunk W) ++
      specParity W n (inp.drop (n * W)) R

theorem padChunk_length (W : Nat) (l : List Byte) :
    (padChunk W l).length = W := by
  simp only [padChunk, List.length_append, List.length_take,
    List.length_replicate]
  omega

theorem padChunk_of_le (W : Nat) (l : List Byte) (h : W ≤ l.length) :
    padChunk W l = l.take W := by
  simp [padChunk, Nat.sub_eq_zero_of_le h]

theorem padChunksOf_length (W : Nat) :
    ∀ (k : Nat) (inp : List Byte), (padChunksOf W inp k).length = k := by
  intro k
  induction k with
  | zero => intro inp; rfl
  | succ k ih => intro inp; simp [padChunksOf, ih]

theorem padChunksOf_mem_length (W : Nat) :
    ∀ (k : Nat) (inp : List Byte) (c : List Byte),
      c ∈ padChunksOf W inp k → c.length = W := by
  intro k
  induction k with
  | zero => intro inp c h; simp [padChunksOf] at h
  | succ k ih =>
    intro inp c h
    simp only [padChunksOf, List.mem_cons] at h
    rcases h with h | h
    · rw [h]; exact padChunk_length W inp
    · exact ih _ _ h

theorem padChunksOf_add (W : Nat) :
    ∀ (a b : Nat) (inp : List Byte),
      padChunksOf W inp (a + b) =
        padChunksOf W inp a ++ padChunksOf W (inp.drop (a * W)) b := by
  intro a
  induction a with
  | zero => intro b inp; simp [padChunksOf]
  | succ a ih =>
    intro b inp
    have : a + 1 + b = (a + b) + 1 := by omega
    rw [this]
    simp only [padChunksOf, List.cons_append]
    rw [ih b (inp.drop W), List.drop_drop]
    have h : W + a * W = (a + 1) * W := by ring
    rw [h]

theorem join_padChunksOf (W : Nat) :
    ∀ (K : Nat) (inp : List Byte),
      (padChunksOf W inp K).flatten =
        inp.take (K * W) ++ List.replicate (K * W - inp.length) 0 := by
  intro K
  induction K with
  | zero => intro inp; simp [padChunksOf]
  | succ K ih =>
    intro inp
    simp only [padChunksOf, List.flatten_cons, ih, padChunk]
    have hsm : (K + 1) * W = W + K * W := by ring
    rcases le_or_lt W inp.length with h | h
    · have h1 : W - inp.length = 0 := by omega
      rw [h1, hsm, List.take_add]
      simp only [List.replicate_zero, List.append_nil, List.append_assoc,
        List.length_drop]
      have h4 : K * W - (inp.length - W) = W + K * W - inp.length := by omega
      rw [h4]
    · have h1 : inp.take W = inp := List.take_of_length_le (by omega)
      have h2 : inp.drop W = [] := List.drop_eq_nil_of_le (by omega)
      have h3 : inp.take ((K + 1) * W) = inp :=
        List.take_of_length_le (by rw [hsm]; omega)
      rw [h1, h2, h3]
      simp only [List.take_nil, List.length_nil, Nat.sub_zero,
        List.nil_append, List.append_assoc]
      rw [← List.replicate_add]
      have h4 : W - inp.length + K * W = (K + 1) * W - inp.length := by
        rw [hsm]; omega
      rw [h4]

/-! XOR algebra on chunk representations. -/

theorem chunkXor_length (a b : List Byte) :
    (chunkXor a b).length = min a.length b.length := by
  simp [chunkXor]

theorem chunkXor_comm (a b : List Byte) : chunkXor a b = chunkXor b a :=
  List.zipWith_comm_of_comm Nat.xor Nat.xor_comm a b

theorem chunkXor_assoc (a : List Byte) :
    ∀ (b c : List Byte), chunkXor (chunkXor a b) c = chunkXor a (chunkXor b c) := by
  induction a with
  | nil => intro b c; simp [chunkXor]
  | cons x xs ih =>
    intro b c
    cases b with
    | nil => simp [chunkXor]
    | cons y ys =>
      cases c with
      | nil => simp [chunkXor]
      | cons z zs =>
        simp only [chunkXor, List.zipWith_cons_cons, Nat.xor_assoc]
        exact List.cons_eq_cons.mpr ⟨rfl, ih ys zs⟩

theorem chunkXor_zero_left (a : List Byte) :
    ∀ (n : Nat), chunkXor (List.replicate n 0) a = a.take n := by
  induction a with
  | nil => intro n; simp [chunkXor]
  | cons x xs ih =>
    intro n
    cases n with
    | zero => simp [chunkXor]
    | succ n =>
      simp only [chunkXor, List.replicate_succ, List.zipWith_cons_cons,
        Nat.zero_xor, List.take_succ_cons]
      exact List.cons_eq_cons.mpr ⟨rfl, ih n⟩

theorem chunkXor_zero_right (a : List Byte) :
    ∀ (n : Nat), chunkXor a (List.replicate n 0) = a.take n := by
  intro n
  rw [chunkXor_comm]
  exact chunkXor_zero_left a n

theorem chunkXor_zeroChunk (W : Nat) (a : List Byte) (h : a.length = W) :
    chunkXor a (zeroChunk W) = a := by
  rw [zeroChunk, chunkXor_zero_right, ← h, List.take_length]

theorem zeroChunk_chunkXor (W : Nat) (a : List Byte) (h : a.length = W) :
    chunkXor (zeroChunk W) a = a := by
  rw [zeroChunk, chunkXor_zero_left, ← h, List.take_length]

/-- The byte-level recovery identity behind the decoder. -/
theorem xorRecoverNat (x y z : Nat) :
    (x ^^^ (z ^^^ y)) ^^^ (x ^^^ y) = z := by
  rw [Nat.xor_comm x (z ^^^ y), Nat.xor_assoc, ← Nat.xor_assoc x x y,
    Nat.xor_self, Nat.zero_xor, Nat.xor_assoc, Nat.xor_self, Nat.xor_zero]

/-- The recovery identity of the decoder, pointwise on byte lists of equal
length: XOR-ing the parity of the full round with the XOR of the present
chunks yields the missing chunk. -/
theorem chunkXor_recover :
    ∀ (c a b : List Byte), a.length = c.length → b.length = c.length →
      chunkXor (chunkXor a (chunkXor c b)) (chunkXor a b) = c := by
  intro c
  induction c with
  | nil =>
    intro a b ha hb
    simp only [List.length_nil, List.length_eq_zero] at ha hb
    subst ha
    subst hb
    rfl
  | cons z zs ih =>
    intro a b ha hb
    cases a with
    | nil => simp at ha
    | cons x xs =>
      cases b with
      | nil => simp at hb
      | cons y ys =>
        simp only [List.length_cons, Nat.add_right_cancel_iff] at ha hb
        simp only [chunkXor, List.zipWith_cons_cons]
        exact List.cons_eq_cons.mpr ⟨xorRecoverNat x y z, ih xs ys ha hb⟩

/-- Pulling the accumulator out of a left fold of `chunkXor` (pure
associativity, no length assumptions). -/
theorem foldl_chunkXor_pull (l : List (List Byte)) :
    ∀ (a b : List Byte),
      l.foldl chunkXor (chunkXor a b) = chunkXor a (l.foldl chunkXor b) := by
  induction l with
  | nil => intro a b; rfl
  | cons c t ih =>
    intro a b
    simp only [List.foldl_cons]
    rw [chunkXor_assoc, ih]

/-! Characterisation of the encoder. -/

theorem take_min_length (l : List Byte) (W : Nat) :
    l.take (min l.length W) = l.take W := by
  rcases le_or_lt l.length W with h | h
  · rw [min_eq_left h, List.take_length, List.take_of_length_le h]
  · rw [min_eq_right (le_of_lt h)]

theorem drop_min_length (l : List Byte) (W : Nat) :
    l.drop (min l.length W) = l.drop W := by
  rcases le_or_lt l.length W with h | h
  · rw [min_eq_left h, List.drop_length, List.drop_eq_nil_of_le h]
  · rw [min_eq_right (le_of_lt h)]

theorem zipWith_append_assoc :
    ∀ (a b c : List (List Byte)),
      List.zipWith (fun x y => x ++ y) (List.zipWith (fun x y => x ++ y) a b) c =
        List.zipWith (fun x y => x ++ y) a (List.zipWith (fun x y => x ++ y) b c) := by
  intro a
  induction a with
  | nil => intro b c; simp
  | cons x xs ih =>
    intro b c
    cases b with
    | nil => simp
    | cons y ys =>
      cases c with
      | nil => simp
      | cons z zs =>
        simp only [List.zipWith_cons_cons, List.append_assoc]
        exact List.cons_eq_cons.mpr ⟨rfl, ih ys zs⟩

theorem zipWith_nil_append :
    ∀ (l : List (List Byte)),
      List.zipWith (fun x y => x ++ y) (List.replicate l.length []) l = l := by
  intro l
  induction l with
  | nil => rfl
  | cons x xs ih =>
    simp only [List.length_cons, List.replicate_succ, List.zipWith_cons_cons,
      List.nil_append]
    exact List.cons_eq_cons.mpr ⟨rfl, ih⟩

theorem zipWith_append_nil :
    ∀ (l : List (List Byte)),
      List.zipWith (fun x y => x ++ y) l (List.replicate l.length []) = l := by
  intro l
  induction l with
  | nil => rfl
  | cons x xs ih =>
    simp only [List.length_cons, List.replicate_succ, List.zipWith_cons_cons,
      List.append_nil]
    exact List.cons_eq_cons.mpr ⟨rfl, ih⟩

theorem zipWith_nil_append' (n : Nat) (l : List (List Byte)) (hl : l.length = n) :
    List.zipWith (fun x y => x ++ y) (List.replicate n []) l = l := by
  rw [← hl, zipWith_nil_append]

theorem zipWith_append_nil' (n : Nat) (l : List (List Byte)) (hl : l.length = n) :
    List.zipWith (fun x y => x ++ y) l (List.replicate n []) = l := by
  rw [← hl, zipWith_append_nil]

/-- What one full round writes: the input advances by `W` per data slice,
the accumulator folds the `W`-byte windows, each slice gets its window
appended. -/
theorem fullRoundAux_eq (W : Nat) :
    ∀ (ds : List (List Byte)) (inp parity : List Byte),
      fullRoundAux W inp parity ds =
        (inp.drop (ds.length * W),
         (takeChunksOf W inp ds.length).foldl chunkXor parity,
         List.zipWith (fun x y => x ++ y) ds (takeChunksOf W inp ds.length)) := by
  intro ds
  induction ds with
  | nil => intro inp parity; simp [fullRoundAux, takeChunksOf]
  | cons s rest ih =>
    intro inp parity
    simp only [fullRoundAux, ih, takeChunksOf, List.length_cons,
      List.zipWith_cons_cons, List.foldl_cons, List.drop_drop, Nat.succ_mul]
    rw [Nat.add_comm W (rest.length * W)]

/-- On a long-enough input the unpadded windows equal the padded ones. -/
theorem takeChunksOf_eq_padChunksOf (W : Nat) :
    ∀ (k : Nat) (inp : List Byte), k * W ≤ inp.length →
      takeChunksOf W inp k = padChunksOf W inp k := by
  intro k
  induction k with
  | zero => intro inp _; rfl
  | succ k ih =>
    intro inp h
    rw [Nat.succ_mul] at h
    have hW : W ≤ inp.length := by omega
    simp only [takeChunksOf, padChunksOf, padChunk_of_le W inp hW]
    refine congrArg _ (ih _ ?_)
    rw [List.length_drop]
    omega

/-- What the partial round writes: every chunk is the zero-padded window,
the input advances by the available bytes (equivalently, past the windows
read), each slice receives a full `W`-byte chunk. -/
theorem partialRoundAux_eq (W : Nat) :
    ∀ (ds : List (List Byte)) (inp parity : List Byte),
      partialRoundAux W inp parity ds =
        (inp.drop (ds.length * W),
         (padChunksOf W inp ds.length).foldl chunkXor parity,
         List.zipWith (fun x y => x ++ y) ds (padChunksOf W inp ds.length)) := by
  intro ds
  induction ds with
  | nil => intro inp parity; simp [partialRoundAux, padChunksOf]
  | cons s rest ih =>
    intro inp parity
    have h1 : inp.take (min inp.length W) = inp.take W := take_min_length inp W
    have h2 : inp.drop (min inp.length W) = inp.drop W := drop_min_length inp W
    have h3 : W - min inp.length W = W - inp.length := by omega
    simp only [partialRoundAux, h1, h2, h3, ih, padChunksOf, padChunk,
      List.length_cons, List.zipWith_cons_cons, List.foldl_cons,
      List.drop_drop, Nat.succ_mul]
    rw [Nat.add_comm W (rest.length * W)]

theorem specData_length (W n : Nat) :
    ∀ (R : Nat) (inp : List Byte), (specData W n inp R).length = n := by
  intro R
  induction R with
  | zero => intro inp; simp [specData]
  | succ R ih =>
    intro inp
    simp [specData, padChunksOf_length, ih]

/-- The full-round loop of the encoder writes, per slice, the concatenation
of that slice's round windows, and appends each round's fold to the parity
slice. -/
theorem encodeRounds_eq (W n : Nat) :
    ∀ (R : Nat) (inp : List Byte) (ds : List (List Byte)) (par : List Byte),
      ds.length = n → R * (n * W) ≤ inp.length →
      encodeRounds W R inp ds par =
        (inp.drop (R * (n * W)),
         List.zipWith (fun x y => x ++ y) ds (specData W n inp R),
         par ++ specParity W n inp R) := by
  intro R
  induction R with
  | zero =>
    intro inp ds par hlen _
    simp only [encodeRounds, specData, specParity, List.append_nil,
      Nat.zero_mul, List.drop_zero]
    rw [← hlen, zipWith_append_nil]
  | succ R ih =>
    intro inp ds par hlen h
    rw [Nat.succ_mul] at h
    have hnW : n * W ≤ inp.length := by omega
    simp only [encodeRounds]
    rw [fullRoundAux_eq, hlen,
      takeChunksOf_eq_padChunksOf W n inp (by omega)]
    rw [ih (inp.drop (n * W))
      (List.zipWith (fun x y => x ++ y) ds (padChunksOf W inp n)) _
      (by rw [List.length_zipWith, hlen, padChunksOf_length]; omega)
      (by rw [List.length_drop]; omega)]
    simp only [specData, specParity, List.drop_drop, zipWith_append_assoc,
      List.append_assoc]
    refine congrArg (fun k => (List.drop k inp, _, _)) ?_
    rw [Nat.succ_mul]
    omega

/-- Unfolding `specData` at the back: round `R` appends the windows at
offset `R * (n * W)`. -/
theorem specData_succ_back (W n : Nat) :
    ∀ (R : Nat) (inp : List Byte),
      specData W n inp (R + 1) =
        List.zipWith (fun x y => x ++ y) (specData W n inp R)
          (padChunksOf W (inp.drop (R * (n * W))) n) := by
  intro R
  induction R with
  | zero =>
    intro inp
    have e1 : specData W n inp (0 + 1) =
        List.zipWith (fun x y => x ++ y) (padChunksOf W inp n)
          (List.replicate n []) := rfl
    have e0 : specData W n inp 0 = List.replicate n [] := rfl
    rw [e1, e0, Nat.zero_mul, List.drop_zero,
      zipWith_append_nil' n _ (padChunksOf_length W n inp),
      zipWith_nil_append' n _ (padChunksOf_length W n inp)]
  | succ R ih =>
    intro inp
    rw [show specData W n inp (R + 1 + 1) =
        List.zipWith (fun x y => x ++ y) (padChunksOf W inp n)
          (specData W n (inp.drop (n * W)) (R + 1)) from rfl]
    rw [ih (inp.drop (n * W))]
    rw [show specData W n inp (R + 1) =
        List.zipWith (fun x y => x ++ y) (padChunksOf W inp n)
          (specData W n (inp.drop (n * W)) R) from rfl]
    rw [← zipWith_append_assoc, List.drop_drop, Nat.succ_mul R (n * W)]
    rw [Nat.add_comm (n * W) (R * (n * W))]

/-- Unfolding `specParity` at the back. -/
theorem specParity_succ_back (W n : Nat) :
    ∀ (R : Nat) (inp : List Byte),
      specParity W n inp (R + 1) =
        specParity W n inp R ++
          (padChunksOf W (inp.drop (R * (n * W))) n).foldl chunkXor (zeroChunk W) := by
  intro R
  induction R with
  | zero =>
    intro inp
    have e1 : specParity W n inp (0 + 1) =
        (padChunksOf W inp n).foldl chunkXor (zeroChunk W) ++
          specParity W n (inp.drop (n * W)) 0 := rfl
    have e0 : ∀ l : List Byte, specParity W n l 0 = [] := fun _ => rfl
    rw [e1, e0, e0, Nat.zero_mul, List.drop_zero, List.append_nil,
      List.nil_append]
  | succ R ih =>
    intro inp
    rw [show specParity W n inp (R + 1 + 1) =
        (padChunksOf W inp n).foldl chunkXor (zeroChunk W) ++
          specParity W n (inp.drop (n * W)) (R + 1) from rfl]
    rw [ih (inp.drop (n * W))]
    rw [show specParity W n inp (R + 1) =
        (padChunksOf W inp n).foldl chunkXor (zeroChunk W) ++
          specParity W n (inp.drop (n * W)) R from rfl]
    rw [List.append_assoc, List.drop_drop, Nat.succ_mul R (n * W)]
    rw [Nat.add_comm (n * W) (R * (n * W))]

/-- The properties record computed for `input`, `W`, `n`. -/
def propsFor (W n : Nat) (input : List Byte) : ida_properties_t :=
  ⟨input.length / (n * W), decide (input.length % (n * W) ≠ 0)⟩

theorem ida_properties_eq (W n : Nat) (input : List Byte) (h : n * W ≠ 0) :
    ida_properties input W n = .ok (propsFor W n input) := by
  simp [ida_properties, propsFor, h]

/-- The encoder, characterised: with valid parameters it returns the
properties record, the `n` data slices each holding its `num_chunks`
zero-padded windows, and the parity slice holding each round's XOR. -/
theorem encode_1_eq (W n : Nat) (input : List Byte) (h : n * W ≠ 0) :
    encode_1 W n input =
      .ok (propsFor W n input,
        specData W n input (propsFor W n input).num_chunks ++
          [specParity W n input (propsFor W n input).num_chunks]) := by
  have hdiv : input.length / (n * W) * (n * W) ≤ input.length :=
    Nat.div_mul_le_self input.length (n * W)
  have hfr : (propsFor W n input).full_rounds = input.length / (n * W) := rfl
  have henc := encodeRounds_eq W n (input.length / (n * W)) input
    (List.replicate n []) [] (List.length_replicate n []) hdiv
  rw [zipWith_nil_append' n _ (specData_length W n _ input),
    List.nil_append] at henc
  by_cases hmod : input.length % (n * W) = 0
  · have hpr : (propsFor W n input).partial_round = false := by
      simp [propsFor, hmod]
    have hnum : (propsFor W n input).num_chunks = input.length / (n * W) := by
      simp [ida_properties_t.num_chunks, hpr]
      rfl
    simp only [encode_1, ida_properties_eq W n input h, hpr, hfr, henc,
      Bool.false_eq_true, if_false, hnum]
  · have hpr : (propsFor W n input).partial_round = true := by
      simp [propsFor, hmod]
    have hnum : (propsFor W n input).num_chunks = input.length / (n * W) + 1 := by
      simp [ida_properties_t.num_chunks, hpr]
      rfl
    simp only [encode_1, ida_properties_eq W n input h, hpr, hfr, henc,
      if_true, hnum]
    rw [partialRoundAux_eq, specData_length]
    rw [← specData_succ_back, ← specParity_succ_back]

/-! Characterisation of the decoder. -/

theorem readChunk_eq (W : Nat) (l : List Byte) (h : W ≤ l.length) :
    readChunk W (some l) = .ok (l.take W, l.drop W) := by
  simp [readChunk, Nat.not_lt.mpr h]

theorem ok_bind {α β : Type} (a : α) (f : α → Except CodecError β) :
    (Except.ok a : Except CodecError α) >>= f = f a := rfl

/-- One pass-through round on slices whose fronts are `W`-byte chunks:
each chunk is copied to the output in slice order and each cursor advances
past it. -/
theorem passRound_spec (W : Nat) :
    ∀ (cs rest : List (List Byte)), cs.length = rest.length →
      (∀ c ∈ cs, c.length = W) →
      passRound W ((List.zipWith (fun x y => x ++ y) cs rest).map some) =
        .ok (rest.map some, cs.flatten) := by
  intro cs
  induction cs with
  | nil =>
    intro rest hlen _
    have : rest = [] := by
      cases rest with
      | nil => rfl
      | cons r rs => simp at hlen
    subst this
    rfl
  | cons c ct ih =>
    intro rest hlen hW
    cases rest with
    | nil => simp at hlen
    | cons r rs =>
      simp only [List.length_cons, Nat.add_right_cancel_iff] at hlen
      have hc : c.length = W := hW c (List.mem_cons_self c ct)
      have hct : ∀ x ∈ ct, x.length = W := fun x hx => hW x (List.mem_cons_of_mem c hx)
      simp only [List.zipWith_cons_cons, List.map_cons, passRound]
      rw [readChunk_eq W (c ++ r) (by rw [List.length_append, hc]; omega),
        List.take_left' hc, List.drop_left' hc, ok_bind, ih rs hlen hct, ok_bind]
      simp [List.flatten_cons]

/-- The pass-through rounds fully drain the encoded data slices, emitting
all padded windows of the input in order. -/
theorem passRounds_specData (W n : Nat) :
    ∀ (R : Nat) (inp : List Byte),
      passRounds W R ((specData W n inp R).map some) =
        .ok (List.replicate n (some []), (padChunksOf W inp (R * n)).flatten) := by
  intro R
  induction R with
  | zero =>
    intro inp
    simp only [passRounds, specData, List.map_replicate, Nat.zero_mul]
    rfl
  | succ R ih =>
    intro inp
    rw [show specData W n inp (R + 1) =
        List.zipWith (fun x y => x ++ y) (padChunksOf W inp n)
          (specData W n (inp.drop (n * W)) R) from rfl]
    simp only [passRounds]
    rw [passRound_spec W (padChunksOf W inp n) (specData W n (inp.drop (n * W)) R)
        (by rw [padChunksOf_length, specData_length])
        (padChunksOf_mem_length W n inp),
      ok_bind, ih (inp.drop (n * W)), ok_bind]
    rw [show (R + 1) * n = n + R * n by rw [Nat.succ_mul]; omega]
    rw [padChunksOf_add, List.flatten_append]

/-- `std::find` finds no `nullptr` among all-present slices. -/
theorem findIdx_all_some :
    ∀ (l : List (Option (List Byte))), (∀ x ∈ l, x.isNone = false) →
      l.findIdx (fun s => s.isNone) = l.length := by
  intro l
  induction l with
  | nil => intro _; rfl
  | cons x xs ih =>
    intro h
    rw [List.findIdx_cons, h x (List.mem_cons_self x xs)]
    simp only [cond_false, List.length_cons]
    rw [ih fun y hy => h y (List.mem_cons_of_mem x hy)]

/-- `std::find` locates the first `nullptr`. -/
theorem findIdx_append_none :
    ∀ (A : List (Option (List Byte))), (∀ x ∈ A, x.isNone = false) →
      ∀ (B : List (Option (List Byte))),
        (A ++ none :: B).findIdx (fun s => s.isNone) = A.length := by
  intro A
  induction A with
  | nil => intro _ B; rfl
  | cons x xs ih =>
    intro h B
    rw [List.cons_append, List.findIdx_cons, h x (List.mem_cons_self x xs)]
    simp only [cond_false, List.length_cons]
    rw [ih (fun y hy => h y (List.mem_cons_of_mem x hy)) B]

theorem getD_concat_length {α : Type} (b d : α) :
    ∀ (A : List α), (A ++ [b]).getD A.length d = b := by
  intro A
  induction A with
  | nil => rfl
  | cons x xs ih => simp [ih]

theorem getD_append_cons_length {α : Type} (x d : α) :
    ∀ (A B : List α), (A ++ x :: B).getD A.length d = x := by
  intro A B
  induction A with
  | nil => rfl
  | cons a as ih => simpa using ih

theorem getD_concat_of_length {α : Type} (b d : α) (A : List α) (k : Nat)
    (hk : A.length = k) : (A ++ [b]).getD k d = b := by
  subst hk
  exact getD_concat_length b d A

theorem getD_append_cons_of_length {α : Type} (x d : α) (A B : List α)
    (k : Nat) (hk : A.length = k) : (A ++ x :: B).getD k d = x := by
  subst hk
  exact getD_append_cons_length x d A B

/-- Setting index `m` of an all-present slice list to the absent marker. -/
theorem set_map_some :
    ∀ (l : List (List Byte)) (m : Nat), m < l.length →
      (l.map some).set m none =
        (l.take m).map some ++ none :: (l.drop (m + 1)).map some := by
  intro l
  induction l with
  | nil => intro m hm; simp at hm
  | cons x xs ih =>
    intro m hm
    cases m with
    | zero => simp
    | succ m =>
      simp only [List.length_cons, Nat.add_lt_add_iff_right] at hm
      simp only [List.map_cons, List.set_cons_succ, List.take_succ_cons,
        List.drop_succ_cons, List.cons_append]
      exact List.cons_eq_cons.mpr ⟨rfl, ih m hm⟩

theorem set_append_of_lt {α : Type} (v : α) :
    ∀ (X Y : List α) (m : Nat), m < X.length →
      (X ++ Y).set m v = X.set m v ++ Y := by
  intro X
  induction X with
  | nil => intro Y m hm; simp at hm
  | cons x xs ih =>
    intro Y m hm
    cases m with
    | zero => simp
    | succ m =>
      simp only [List.length_cons, Nat.add_lt_add_iff_right] at hm
      simp only [List.cons_append, List.set_cons_succ]
      exact List.cons_eq_cons.mpr ⟨rfl, ih Y m hm⟩

theorem foldl_chunkXor_length (W : Nat) :
    ∀ (l : List (List Byte)) (acc : List Byte), acc.length = W →
      (∀ c ∈ l, c.length = W) → (l.foldl chunkXor acc).length = W := by
  intro l
  induction l with
  | nil => intro acc ha _; exact ha
  | cons c t ih =>
    intro acc ha h
    simp only [List.foldl_cons]
    exact ih (chunkXor acc c)
      (by simp [chunkXor_length, ha, h c (List.mem_cons_self c t)])
      (fun x hx => h x (List.mem_cons_of_mem c hx))

/-- A fold of `chunkXor` over `W`-byte chunks factors through the fold that
starts at the zero chunk. -/
theorem foldl_chunkXor_pull_zero (W : Nat) :
    ∀ (l : List (List Byte)) (acc : List Byte), acc.length = W →
      (∀ c ∈ l, c.length = W) →
      l.foldl chunkXor acc = chunkXor acc (l.foldl chunkXor (zeroChunk W)) := by
  intro l
  induction l with
  | nil => intro acc ha _; exact (chunkXor_zeroChunk W acc ha).symm
  | cons c t ih =>
    intro acc ha h
    have hc : c.length = W := h c (List.mem_cons_self c t)
    have ht : ∀ x ∈ t, x.length = W := fun x hx => h x (List.mem_cons_of_mem c hx)
    simp only [List.foldl_cons]
    rw [ih (chunkXor acc c) (by simp [chunkXor_length, ha, hc]) ht,
      chunkXor_assoc, zeroChunk_chunkXor W c hc, ih c hc ht]

theorem take_getD_drop {α : Type} (d : α) (l : List α) (m : Nat)
    (hm : m < l.length) :
    l = l.take m ++ l.getD m d :: l.drop (m + 1) := by
  conv_lhs => rw [← List.take_append_drop m l]
  rw [List.drop_eq_getElem_cons hm, List.getD_eq_getElem l d hm]

/-- The double-XOR rearrangement used by `recovery_eq`. -/
theorem xor_rearrange (A B cm : List Byte) (hA : A.length = cm.length)
    (hB : B.length = cm.length) :
    chunkXor (chunkXor (chunkXor (chunkXor A cm) B) A) B = cm := by
  rw [chunkXor_assoc (chunkXor (chunkXor A cm) B) A B, chunkXor_assoc A cm B]
  exact chunkXor_recover cm A B hA hB

/-- The reconstruction accumulator of one round: fold the parity chunk with
all present chunks and the missing chunk emerges. -/
theorem recovery_eq (W : Nat) (cs : List (List Byte)) (m : Nat)
    (hm : m < cs.length) (hlen : ∀ c ∈ cs, c.length = W) :
    (cs.drop (m + 1)).foldl chunkXor
      ((cs.take m).foldl chunkXor (cs.foldl chunkXor (zeroChunk W))) =
    cs.getD m [] := by
  have hdec := take_getD_drop [] cs m hm
  have hpreW : ∀ c ∈ cs.take m, c.length = W :=
    fun c hc => hlen c (List.mem_of_mem_take hc)
  have hpostW : ∀ c ∈ cs.drop (m + 1), c.length = W :=
    fun c hc => hlen c (List.mem_of_mem_drop hc)
  have hcmW : (cs.getD m []).length = W := by
    refine hlen _ ?_
    rw [List.getD_eq_getElem cs [] hm]
    exact List.getElem_mem hm
  have hz : (zeroChunk W).length = W := List.length_replicate W 0
  have hA : ((cs.take m).foldl chunkXor (zeroChunk W)).length = W :=
    foldl_chunkXor_length W _ _ hz hpreW
  have hB : ((cs.drop (m + 1)).foldl chunkXor (zeroChunk W)).length = W :=
    foldl_chunkXor_length W _ _ hz hpostW
  have hcsW : (cs.foldl chunkXor (zeroChunk W)).length = W :=
    foldl_chunkXor_length W _ _ hz hlen
  have hP : cs.foldl chunkXor (zeroChunk W) =
      chunkXor (chunkXor ((cs.take m).foldl chunkXor (zeroChunk W)) (cs.getD m []))
        ((cs.drop (m + 1)).foldl chunkXor (zeroChunk W)) := by
    conv_lhs => rw [hdec]
    rw [List.foldl_append, List.foldl_cons]
    refine foldl_chunkXor_pull_zero W _ _ ?_ hpostW
    rw [chunkXor_length, hA, hcmW]
    exact Nat.min_self W
  rw [foldl_chunkXor_pull_zero W (cs.take m) _ hcsW hpreW]
  rw [foldl_chunkXor_pull_zero W (cs.drop (m + 1)) _
    (by rw [chunkXor_length, hcsW, hA]; exact Nat.min_self W) hpostW]
  rw [hP]
  exact xor_rearrange _ _ _ (hA.trans hcmW.symm) (hB.trans hcmW.symm)

/-- The copy-and-cancel scan on slices whose fronts are `W`-byte chunks. -/
theorem scanChunks_spec (W : Nat) :
    ∀ (cs rest : List (List Byte)) (acc : List Byte),
      cs.length = rest.length → (∀ c ∈ cs, c.length = W) →
      scanChunks W acc ((List.zipWith (fun x y => x ++ y) cs rest).map some) =
        .ok (cs.foldl chunkXor acc, rest.map some, cs.flatten) := by
  intro cs
  induction cs with
  | nil =>
    intro rest acc hlen _
    have hrest : rest = [] := by
      cases rest with
      | nil => rfl
      | cons r rs => simp at hlen
    subst hrest
    rfl
  | cons c ct ih =>
    intro rest acc hlen hW
    cases rest with
    | nil => simp at hlen
    | cons r rs =>
      simp only [List.length_cons, Nat.add_right_cancel_iff] at hlen
      have hc : c.length = W := hW c (List.mem_cons_self c ct)
      have hct : ∀ x ∈ ct, x.length = W :=
        fun x hx => hW x (List.mem_cons_of_mem c hx)
      simp only [List.zipWith_cons_cons, List.map_cons, scanChunks]
      rw [readChunk_eq W (c ++ r) (by rw [List.length_append, hc]; omega),
        List.take_left' hc, List.drop_left' hc, ok_bind,
        ih rs (chunkXor acc c) hlen hct, ok_bind]
      simp [List.flatten_cons]

/-- One reconstruction round on encoded slices with data slot `m` absent:
the parity chunk plus the present chunks recover the missing chunk, the
round's output is exactly the full round of data chunks, and every present
cursor advances one chunk. -/
theorem reconRound_spec (W n m : Nat) (cs rest : List (List Byte))
    (prest : List Byte) (hcs : cs.length = n) (hrest : rest.length = n)
    (hm : m < n) (hW : ∀ c ∈ cs, c.length = W) :
    reconRound W n m
      ((((List.zipWith (fun x y => x ++ y) cs rest).map some).set m none) ++
        [some (cs.foldl chunkXor (zeroChunk W) ++ prest)]) =
      .ok ((rest.map some).set m none ++ [some prest], cs.flatten) := by
  have hz : (zeroChunk W).length = W := List.length_replicate W 0
  have hPlen : (cs.foldl chunkXor (zeroChunk W)).length = W :=
    foldl_chunkXor_length W cs (zeroChunk W) hz hW
  have hZlen : (List.zipWith (fun x y => x ++ y) cs rest).length = n := by
    rw [List.length_zipWith, hcs, hrest]
    exact Nat.min_self n
  have hmZ : m < (List.zipWith (fun x y => x ++ y) cs rest).length := by
    rw [hZlen]; exact hm
  have hfront :
      ((((List.zipWith (fun x y => x ++ y) cs rest).map some).set m none)).length
        = n := by
    rw [List.length_set, List.length_map, hZlen]
  have hA'len : (((List.zipWith (fun x y => x ++ y) cs rest).take m).map some).length
      = m := by
    rw [List.length_map, List.length_take, hZlen]
    exact Nat.min_eq_left (Nat.le_of_lt hm)
  have hsplit := set_map_some (List.zipWith (fun x y => x ++ y) cs rest) m hmZ
  rw [reconRound]
  rw [getD_concat_of_length _ none _ n hfront, readChunk_eq W _
    (by rw [List.length_append, hPlen]; omega),
    List.take_left' hPlen, List.drop_left' hPlen, ok_bind]
  rw [List.take_left' hfront]
  rw [hsplit]
  rw [List.take_left' hA'len]
  rw [List.append_cons _ none _,
    List.drop_left' (by rw [List.length_append, hA'len, List.length_singleton])]
  rw [List.take_zipWith, List.drop_zipWith]
  rw [scanChunks_spec W (cs.take m) (rest.take m) _
    (by rw [List.length_take, List.length_take, hcs, hrest])
    (fun c hc => hW c (List.mem_of_mem_take hc)), ok_bind]
  rw [scanChunks_spec W (cs.drop (m + 1)) (rest.drop (m + 1)) _
    (by rw [List.length_drop, List.length_drop, hcs, hrest])
    (fun c hc => hW c (List.mem_of_mem_drop hc)), ok_bind]
  rw [recovery_eq W cs m (by rw [hcs]; exact hm) hW]
  have hA2len : (List.map some
      (List.zipWith (fun x y => x ++ y) (List.take m cs) (List.take m rest))).length
      = m := by
    rw [List.length_map, List.length_zipWith, List.length_take,
      List.length_take, hcs, hrest]
    omega
  rw [List.append_assoc (List.map some
      (List.zipWith (fun x y => x ++ y) (List.take m cs) (List.take m rest)) ++ [none])]
  rw [List.append_assoc (List.map some
      (List.zipWith (fun x y => x ++ y) (List.take m cs) (List.take m rest))) [none]]
  rw [List.singleton_append]
  rw [getD_append_cons_of_length none none _ _ m hA2len]
  rw [set_map_some rest m (by rw [hrest]; exact hm)]
  have hout : (cs.take m).flatten ++ cs.getD m [] ++ (cs.drop (m + 1)).flatten
      = cs.flatten := by
    conv_rhs => rw [take_getD_drop [] cs m (by rw [hcs]; exact hm)]
    rw [List.flatten_append, List.flatten_cons, List.append_assoc]
  have hout' : (cs.take m).flatten ++ (cs.getD m [] ++ (cs.drop (m + 1)).flatten)
      = cs.flatten := by
    rw [← List.append_assoc]
    exact hout
  simp only [List.append_assoc, List.singleton_append, List.cons_append,
    List.nil_append]
  rw [hout']

/-- All rounds of the reconstruction branch on encoded slices with data
slot `m` absent: the output equals the full dispersal of the input and all
present cursors are drained. -/
theorem reconRounds_specData (W n m : Nat) (hm : m < n) :
    ∀ (R : Nat) (inp : List Byte),
      reconRounds W n m R
        (((specData W n inp R).map some).set m none ++
          [some (specParity W n inp R)]) =
      .ok ((List.replicate n (some ([] : List Byte))).set m none ++ [some []],
        (padChunksOf W inp (R * n)).flatten) := by
  intro R
  induction R with
  | zero =>
    intro inp
    simp only [reconRounds, specData, specParity, List.map_replicate,
      Nat.zero_mul]
    rfl
  | succ R ih =>
    intro inp
    rw [show specData W n inp (R + 1) =
        List.zipWith (fun x y => x ++ y) (padChunksOf W inp n)
          (specData W n (inp.drop (n * W)) R) from rfl]
    rw [show specParity W n inp (R + 1) =
        (padChunksOf W inp n).foldl chunkXor (zeroChunk W) ++
          specParity W n (inp.drop (n * W)) R from rfl]
    simp only [reconRounds]
    rw [reconRound_spec W n m (padChunksOf W inp n)
        (specData W n (inp.drop (n * W)) R) (specParity W n (inp.drop (n * W)) R)
        (padChunksOf_length W n inp) (specData_length W n R (inp.drop (n * W)))
        hm (padChunksOf_mem_length W n inp), ok_bind]
    rw [ih (inp.drop (n * W)), ok_bind]
    rw [show (R + 1) * n = n + R * n by rw [Nat.succ_mul]; omega]
    rw [padChunksOf_add W n (R * n) inp, List.flatten_append]

theorem map_some_isNone_false {l : List (List Byte)} :
    ∀ x ∈ l.map some, x.isNone = false := by
  intro x hx
  rcases List.mem_map.mp hx with ⟨y, _, rfl⟩
  rfl

/-- `decode` on a complete encoding: the pass-through branch runs, never
touching the parity cursor, and emits the full dispersal of the input. -/
theorem decode_pass_spec (W n R : Nat) (input : List Byte) :
    decode W n ((specData W n input R ++ [specParity W n input R]).map some) R =
      .ok (List.replicate n (some ([] : List Byte)) ++
          [some (specParity W n input R)],
        (padChunksOf W input (R * n)).flatten) := by
  have hdlen : ((specData W n input R).map some).length = n := by
    rw [List.length_map, specData_length]
  have hall : ∀ x ∈ (specData W n input R).map some ++
      [some (specParity W n input R)], x.isNone = false := by
    intro x hx
    rcases List.mem_append.mp hx with h | h
    · exact map_some_isNone_false x h
    · rw [List.mem_singleton.mp h]; rfl
  have hfind : ((specData W n input R).map some ++
      [some (specParity W n input R)]).findIdx
      (fun s : Option (List Byte) => s.isNone) = n + 1 := by
    rw [findIdx_all_some _ hall, List.length_append, List.length_map,
      specData_length, List.length_singleton]
  simp only [decode, List.map_append, List.map_cons, List.map_nil, hfind]
  rw [if_pos (Nat.le_succ n)]
  rw [List.take_left' hdlen, passRounds_specData W n R input, ok_bind,
    List.drop_left' hdlen]

/-- `decode` with the parity slice absent: the first `nullptr` is found at
index `n`, so the same pass-through branch runs. -/
theorem decode_parity_missing_spec (W n R : Nat) (input : List Byte) :
    decode W n ((specData W n input R).map some ++ [none]) R =
      .ok (List.replicate n (some ([] : List Byte)) ++ [none],
        (padChunksOf W input (R * n)).flatten) := by
  have hdlen : ((specData W n input R).map some).length = n := by
    rw [List.length_map, specData_length]
  have hfind : ((specData W n input R).map some ++ [none]).findIdx
      (fun s : Option (List Byte) => s.isNone) = n := by
    rw [findIdx_append_none _ map_some_isNone_false, hdlen]
  simp only [decode, hfind]
  rw [if_pos (Nat.le_refl n)]
  rw [List.take_left' hdlen, passRounds_specData W n R input, ok_bind,
    List.drop_left' hdlen]

/-- `decode` with data slice `m < n` absent: the reconstruction branch runs
on the first absent index and emits the full dispersal of the input. -/
theorem decode_recon_spec (W n m R : Nat) (input : List Byte) (hm : m < n) :
    decode W n
      (((specData W n input R ++ [specParity W n input R]).map some).set m none)
      R =
      .ok ((List.replicate n (some ([] : List Byte))).set m none ++ [some []],
        (padChunksOf W input (R * n)).flatten) := by
  have hdlen : ((specData W n input R).map some).length = n := by
    rw [List.length_map, specData_length]
  have hml : m < (specData W n input R).length := by
    rw [specData_length]; exact hm
  have hset : (((specData W n input R ++ [specParity W n input R]).map some).set m none)
      = ((specData W n input R).map some).set m none ++
        [some (specParity W n input R)] := by
    rw [List.map_append, List.map_cons, List.map_nil,
      set_append_of_lt _ _ _ m (by rw [hdlen]; exact hm)]
  have hsplit := set_map_some (specData W n input R) m hml
  have hA'len : (((specData W n input R).take m).map some).length = m := by
    rw [List.length_map, List.length_take, specData_length]
    exact Nat.min_eq_left (Nat.le_of_lt hm)
  have hfind : ((((specData W n input R ++ [specParity W n input R]).map some).set
      m none)).findIdx (fun s : Option (List Byte) => s.isNone) = m := by
    rw [hset, hsplit, List.append_assoc, List.cons_append,
      findIdx_append_none _ map_some_isNone_false, hA'len]
  simp only [decode, hfind]
  rw [if_neg (by omega)]
  rw [hset]
  exact reconRounds_specData W n m hm R input

instance {ε α : Type} [DecidableEq ε] [DecidableEq α] : DecidableEq (Except ε α) :=
  fun a b =>
    match a, b with
    | .ok x, .ok y =>
      if h : x = y then isTrue (by rw [h])
      else isFalse (by intro hc; cases hc; exact h rfl)
    | .error x, .error y =>
      if h : x = y then isTrue (by rw [h])
      else isFalse (by intro hc; cases hc; exact h rfl)
    | .ok _, .error _ => isFalse (by intro hc; cases hc)
    | .error _, .ok _ => isFalse (by intro hc; cases hc)

/-- The input never exceeds `num_chunks` rounds of `n * W` bytes. -/
theorem length_le_chunks (W n : Nat) (input : List Byte) (h : n * W ≠ 0) :
    input.length ≤ (propsFor W n input).num_chunks * (n * W) := by
  have hpos : 0 < n * W := Nat.pos_of_ne_zero h
  have hdm := Nat.div_add_mod input.length (n * W)
  have h3 : input.length / (n * W) * (n * W) = n * W * (input.length / (n * W)) :=
    Nat.mul_comm _ _
  by_cases hmod : input.length % (n * W) = 0
  · have hnum : (propsFor W n input).num_chunks = input.length / (n * W) := by
      simp [ida_properties_t.num_chunks, propsFor, hmod]
    rw [hnum]
    omega
  · have hnum : (propsFor W n input).num_chunks = input.length / (n * W) + 1 := by
      simp [ida_properties_t.num_chunks, propsFor, hmod]
    have h2 : (input.length / (n * W) + 1) * (n * W)
        = input.length / (n * W) * (n * W) + n * W := Nat.succ_mul _ _
    have hml : input.length % (n * W) < n * W := Nat.mod_lt _ hpos
    rw [hnum]
    omega

/-- Truncating the full dispersal to the original length recovers the
input. -/
theorem flatten_padChunksOf_take (W n R : Nat) (input : List Byte)
    (hlen : input.length ≤ R * (n * W)) :
    ((padChunksOf W input (R * n)).flatten).take input.length = input := by
  rw [join_padChunksOf]
  have hmm : R * n * W = R * (n * W) := Nat.mul_assoc R n W
  rw [hmm, List.take_of_length_le hlen]
  exact List.take_left input _

/-- C1.  For every `n ≥ 1`, chunk width `W ∈ {1,2,4,8}`, and byte sequence
of any length, encoding with `encode_1` into `n + 1` slices and decoding
with `decode` (no slice absent), truncated to the original input length,
yields exactly the original byte sequence. -/
theorem roundtrip_no_missing (W n : Nat) (input : List Byte)
    (hW : W = 1 ∨ W = 2 ∨ W = 4 ∨ W = 8) (hn : 1 ≤ n)
    (p : ida_properties_t) (slices : List (List Byte))
    (henc : encode_1 W n input = .ok (p, slices)) :
    ∃ cursors out,
      decode W n (slices.map some) p.num_chunks = .ok (cursors, out) ∧
      out.take input.length = input := by
  have hWpos : 1 ≤ W := by rcases hW with h | h | h | h <;> omega
  have hnW : n * W ≠ 0 := by
    have := Nat.mul_le_mul hn hWpos
    omega
  rw [encode_1_eq W n input hnW] at henc
  have h2 := Except.ok.inj henc
  injection h2 with hp hs
  subst hp
  subst hs
  exact ⟨_, _, decode_pass_spec W n (propsFor W n input).num_chunks input,
    flatten_padChunksOf_take W n _ input (length_le_chunks W n input hnW)⟩

/-- C1, witness: the concrete scenario of the specification
(`n = 2`, `W = 1`, `input = 01 02 03 04 05`). -/
theorem roundtrip_no_missing_witness :
    ((1 : Nat) = 1 ∨ (1 : Nat) = 2 ∨ (1 : Nat) = 4 ∨ (1 : Nat) = 8) ∧
    (1 ≤ 2) ∧
    encode_1 1 2 [1, 2, 3, 4, 5] =
      .ok (⟨2, true⟩, [[1, 3, 5], [2, 4, 0], [3, 7, 5]]) ∧
    (∃ cursors out,
      decode 1 2 ([[1, 3, 5], [2, 4, 0], [3, 7, 5]].map some)
        (ida_properties_t.mk 2 true).num_chunks = .ok (cursors, out) ∧
      out.take (List.length ([1, 2, 3, 4, 5] : List Byte)) = [1, 2, 3, 4, 5]) :=
  ⟨Or.inl rfl, by decide, by decide,
   roundtrip_no_missing 1 2 [1, 2, 3, 4, 5] (Or.inl rfl) (by decide)
     ⟨2, true⟩ [[1, 3, 5], [2, 4, 0], [3, 7, 5]] (by decide)⟩

/-- C2.  For every `n ≥ 1`, `W ≥ 1`, input, and data-slice index `i < n`:
marking `slices[i]` absent after encoding and decoding reconstructs the
original data exactly, up to truncation to the original length. -/
theorem roundtrip_one_missing (W n i : Nat) (input : List Byte)
    (hW : 1 ≤ W) (hn : 1 ≤ n) (hi : i < n)
    (p : ida_properties_t) (slices : List (List Byte))
    (henc : encode_1 W n input = .ok (p, slices)) :
    ∃ cursors out,
      decode W n ((slices.map some).set i none) p.num_chunks =
        .ok (cursors, out) ∧
      out.take input.length = input := by
  have hnW : n * W ≠ 0 := by
    have := Nat.mul_le_mul hn hW
    omega
  rw [encode_1_eq W n input hnW] at henc
  have h2 := Except.ok.inj henc
  injection h2 with hp hs
  subst hp
  subst hs
  exact ⟨_, _, decode_recon_spec W n i (propsFor W n input).num_chunks input hi,
    flatten_padChunksOf_take W n _ input (length_le_chunks W n input hnW)⟩

/-- C2, witness: the specification's scenario with slice `1` absent. -/
theorem roundtrip_one_missing_witness :
    (1 ≤ 1) ∧ (1 ≤ 2) ∧ (1 < 2) ∧
    encode_1 1 2 [1, 2, 3, 4, 5] =
      .ok (⟨2, true⟩, [[1, 3, 5], [2, 4, 0], [3, 7, 5]]) ∧
    (∃ cursors out,
      decode 1 2 (([[1, 3, 5], [2, 4, 0], [3, 7, 5]].map some).set 1 none)
        (ida_properties_t.mk 2 true).num_chunks = .ok (cursors, out) ∧
      out.take (List.length ([1, 2, 3, 4, 5] : List Byte)) = [1, 2, 3, 4, 5]) :=
  ⟨by decide, by decide, by decide, by decide,
   roundtrip_one_missing 1 2 1 [1, 2, 3, 4, 5] (by decide) (by decide)
     (by decide) ⟨2, true⟩ [[1, 3, 5], [2, 4, 0], [3, 7, 5]] (by decide)⟩

theorem getD_replicate {α : Type} (a d : α) :
    ∀ (n i : Nat), i < n → (List.replicate n a).getD i d = a := by
  intro n
  induction n with
  | zero => intro i h; exact absurd h (Nat.not_lt_zero i)
  | succ n ih =>
    intro i h
    cases i with
    | zero => rfl
    | succ i =>
      simp only [List.replicate_succ, List.getD_cons_succ]
      exact ih i (by omega)

theorem zipWith_append_getD :
    ∀ (a b : List (List Byte)) (i : Nat), i < a.length → i < b.length →
      (List.zipWith (fun x y => x ++ y) a b).getD i [] =
        a.getD i [] ++ b.getD i [] := by
  intro a
  induction a with
  | nil => intro b i h _; simp at h
  | cons x xs ih =>
    intro b i h1 h2
    cases b with
    | nil => simp at h2
    | cons y ys =>
      cases i with
      | zero => rfl
      | succ i =>
        simp only [List.zipWith_cons_cons, List.getD_cons_succ]
        exact ih ys i (by simpa using h1) (by simpa using h2)

/-- Every data slice holds `R * W` bytes after `R` rounds. -/
theorem specData_getD_length (W n : Nat) :
    ∀ (R : Nat) (inp : List Byte) (i : Nat), i < n →
      ((specData W n inp R).getD i []).length = R * W := by
  intro R
  induction R with
  | zero =>
    intro inp i hi
    rw [show specData W n inp 0 = List.replicate n [] from rfl,
      getD_replicate _ _ n i hi]
    simp
  | succ R ih =>
    intro inp i hi
    rw [show specData W n inp (R + 1) = List.zipWith (fun x y => x ++ y)
        (padChunksOf W inp n) (specData W n (inp.drop (n * W)) R) from rfl]
    rw [zipWith_append_getD _ _ i (by rw [padChunksOf_length]; exact hi)
      (by rw [specData_length]; exact hi)]
    rw [List.length_append, ih (inp.drop (n * W)) i hi]
    have hmem : (padChunksOf W inp n).getD i [] ∈ padChunksOf W inp n := by
      rw [List.getD_eq_getElem _ _ (by rw [padChunksOf_length]; exact hi)]
      exact List.getElem_mem _
    rw [padChunksOf_mem_length W n inp _ hmem, Nat.succ_mul]
    omega

/-- The parity slice holds `R * W` bytes after `R` rounds. -/
theorem specParity_length (W n : Nat) :
    ∀ (R : Nat) (inp : List Byte), (specParity W n inp R).length = R * W := by
  intro R
  induction R with
  | zero => intro inp; simp [specParity]
  | succ R ih =>
    intro inp
    rw [show specParity W n inp (R + 1) =
        (padChunksOf W inp n).foldl chunkXor (zeroChunk W) ++
          specParity W n (inp.drop (n * W)) R from rfl]
    have hz : (zeroChunk W).length = W := List.length_replicate W 0
    rw [List.length_append, ih (inp.drop (n * W)),
      foldl_chunkXor_length W _ _ hz (padChunksOf_mem_length W n inp),
      Nat.succ_mul]
    omega

/-- C4.  With no slice absent, or with the parity slice (index `n`) absent,
`decode` runs the pass-through branch: it emits the `n` data chunks of each
round verbatim and in order (the full dispersal of the input), never
advances the parity cursor, and the result truncates to the original
data. -/
theorem decode_pass_through (W n : Nat) (input : List Byte)
    (hW : 1 ≤ W) (hn : 1 ≤ n)
    (p : ida_properties_t) (slices : List (List Byte))
    (henc : encode_1 W n input = .ok (p, slices)) :
    (∃ cursors,
      decode W n (slices.map some) p.num_chunks =
        .ok (cursors, (padChunksOf W input (p.num_chunks * n)).flatten) ∧
      cursors.drop n = (slices.map some).drop n ∧
      ((padChunksOf W input (p.num_chunks * n)).flatten).take input.length
        = input) ∧
    (∃ cursors,
      decode W n ((slices.take n).map some ++ [none]) p.num_chunks =
        .ok (cursors, (padChunksOf W input (p.num_chunks * n)).flatten) ∧
      cursors.drop n = [none] ∧
      ((padChunksOf W input (p.num_chunks * n)).flatten).take input.length
        = input) := by
  have hnW : n * W ≠ 0 := by
    have := Nat.mul_le_mul hn hW
    omega
  rw [encode_1_eq W n input hnW] at henc
  have h2 := Except.ok.inj henc
  injection h2 with hp hs
  subst hp
  subst hs
  have hdlen : ((specData W n input (propsFor W n input).num_chunks).map some).length
      = n := by
    rw [List.length_map, specData_length]
  have hrep : (List.replicate n (some ([] : List Byte))).length = n :=
    List.length_replicate n _
  have htr := flatten_padChunksOf_take W n (propsFor W n input).num_chunks input
    (length_le_chunks W n input hnW)
  constructor
  · refine ⟨_, decode_pass_spec W n (propsFor W n input).num_chunks input, ?_, htr⟩
    rw [List.drop_left' hrep, List.map_append, List.map_cons, List.map_nil,
      List.drop_left' hdlen]
  · rw [List.take_left' (specData_length W n (propsFor W n input).num_chunks input)]
    refine ⟨_, decode_parity_missing_spec W n (propsFor W n input).num_chunks input,
      ?_, htr⟩
    rw [List.drop_left' hrep]

/-- C4, witness: the specification's concrete scenario, both configurations. -/
theorem decode_pass_through_witness :
    (1 ≤ 1) ∧ (1 ≤ 2) ∧
    encode_1 1 2 [1, 2, 3, 4, 5] =
      .ok (⟨2, true⟩, [[1, 3, 5], [2, 4, 0], [3, 7, 5]]) ∧
    ((∃ cursors,
      decode 1 2 ([[1, 3, 5], [2, 4, 0], [3, 7, 5]].map some)
        (ida_properties_t.mk 2 true).num_chunks =
        .ok (cursors,
          (padChunksOf 1 [1, 2, 3, 4, 5]
            ((ida_properties_t.mk 2 true).num_chunks * 2)).flatten) ∧
      cursors.drop 2 = ([[1, 3, 5], [2, 4, 0], [3, 7, 5]].map some).drop 2 ∧
      ((padChunksOf 1 [1, 2, 3, 4, 5]
          ((ida_properties_t.mk 2 true).num_chunks * 2)).flatten).take
        (List.length ([1, 2, 3, 4, 5] : List Byte)) = [1, 2, 3, 4, 5]) ∧
    (∃ cursors,
      decode 1 2 (([[1, 3, 5], [2, 4, 0], [3, 7, 5]].take 2).map some ++ [none])
        (ida_properties_t.mk 2 true).num_chunks =
        .ok (cursors,
          (padChunksOf 1 [1, 2, 3, 4, 5]
            ((ida_properties_t.mk 2 true).num_chunks * 2)).flatten) ∧
      cursors.drop 2 = [none] ∧
      ((padChunksOf 1 [1, 2, 3, 4, 5]
          ((ida_properties_t.mk 2 true).num_chunks * 2)).flatten).take
        (List.length ([1, 2, 3, 4, 5] : List Byte)) = [1, 2, 3, 4, 5])) :=
  ⟨by decide, by decide, by decide,
   decode_pass_through 1 2 [1, 2, 3, 4, 5] (by decide) (by decide)
     ⟨2, true⟩ [[1, 3, 5], [2, 4, 0], [3, 7, 5]] (by decide)⟩

/-- C5.  The properties computation returns
`full_rounds = inputLength / (n * W)` and
`partial_round = (inputLength mod (n * W)) ≠ 0`;
`num_chunks = full_rounds + (partial_round ? 1 : 0)`; and every data slice
receives exactly `num_chunks * W` bytes from `encode_1`. -/
theorem properties_arithmetic (W n : Nat) (input : List Byte)
    (hW : 1 ≤ W) (hn : 1 ≤ n) :
    ∃ p : ida_properties_t,
      ida_properties input W n = .ok p ∧
      p.full_rounds = input.length / (n * W) ∧
      (p.partial_round = true ↔ input.length % (n * W) ≠ 0) ∧
      p.num_chunks = p.full_rounds + (if p.partial_round then 1 else 0) ∧
      ∀ (q : ida_properties_t) (slices : List (List Byte)),
        encode_1 W n input = .ok (q, slices) →
        ∀ i, i < n → (slices.getD i []).length = q.num_chunks * W := by
  have hnW : n * W ≠ 0 := by
    have := Nat.mul_le_mul hn hW
    omega
  refine ⟨propsFor W n input, ida_properties_eq W n input hnW, rfl, ?_, rfl, ?_⟩
  · simp [propsFor]
  · intro q slices henc i hi
    rw [encode_1_eq W n input hnW] at henc
    have h2 := Except.ok.inj henc
    injection h2 with hp hs
    subst hp
    subst hs
    rw [List.getD_append _ _ _ _ (by rw [specData_length]; exact hi)]
    exact specData_getD_length W n _ input i hi

/-- C5, witness. -/
theorem properties_arithmetic_witness :
    (1 ≤ 1) ∧ (1 ≤ 2) ∧
    ∃ p : ida_properties_t,
      ida_properties [1, 2, 3, 4, 5] 1 2 = .ok p ∧
      p.full_rounds = (List.length ([1, 2, 3, 4, 5] : List Byte)) / (2 * 1) ∧
      (p.partial_round = true ↔
        (List.length ([1, 2, 3, 4, 5] : List Byte)) % (2 * 1) ≠ 0) ∧
      p.num_chunks = p.full_rounds + (if p.partial_round then 1 else 0) ∧
      ∀ (q : ida_properties_t) (slices : List (List Byte)),
        encode_1 1 2 [1, 2, 3, 4, 5] = .ok (q, slices) →
        ∀ i, i < 2 → (slices.getD i []).length = q.num_chunks * 1 :=
  ⟨by decide, by decide,
   properties_arithmetic 1 2 [1, 2, 3, 4, 5] (by decide) (by decide)⟩

theorem padChunksOf_getD (W : Nat) :
    ∀ (k : Nat) (inp : List Byte) (i : Nat), i < k →
      (padChunksOf W inp k).getD i [] = padChunk W (inp.drop (i * W)) := by
  intro k
  induction k with
  | zero => intro inp i hi; exact absurd hi (Nat.not_lt_zero i)
  | succ k ih =>
    intro inp i hi
    cases i with
    | zero =>
      simp only [padChunksOf, List.getD_cons_zero, Nat.zero_mul, List.drop_zero]
    | succ i =>
      simp only [padChunksOf, List.getD_cons_succ]
      rw [ih (inp.drop W) i (by omega), List.drop_drop]
      rw [show W + i * W = (i + 1) * W by ring]

theorem range_map_padChunksOf (W : Nat) :
    ∀ (k : Nat) (l : List Byte),
      (List.range k).map (fun i => padChunk W (l.drop (i * W))) =
        padChunksOf W l k := by
  intro k
  induction k with
  | zero => intro l; rfl
  | succ k ih =>
    intro l
    rw [List.range_succ_eq_map, List.map_cons, List.map_map]
    simp only [Nat.zero_mul, List.drop_zero]
    rw [show (fun i => padChunk W (l.drop (i * W))) ∘ Nat.succ
        = fun i => padChunk W (l.drop (Nat.succ i * W)) from rfl]
    rw [List.map_congr_left (g := fun i => padChunk W ((l.drop W).drop (i * W)))
      (fun i _ => by
        show padChunk W (l.drop (Nat.succ i * W)) = padChunk W ((l.drop W).drop (i * W))
        rw [List.drop_drop, Nat.succ_mul, Nat.add_comm (i * W) W])]
    rw [ih (l.drop W)]
    rfl

/-- Segment `r` of the parity slice is the XOR-fold of round `r`'s padded
windows. -/
theorem specParity_segment (W n : Nat) :
    ∀ (R : Nat) (inp : List Byte) (r : Nat), r < R →
      ((specParity W n inp R).drop (r * W)).take W =
        (padChunksOf W (inp.drop (r * (n * W))) n).foldl chunkXor (zeroChunk W) := by
  intro R
  induction R with
  | zero => intro inp r hr; exact absurd hr (Nat.not_lt_zero r)
  | succ R ih =>
    intro inp r hr
    have hz : (zeroChunk W).length = W := List.length_replicate W 0
    have hS : ((padChunksOf W inp n).foldl chunkXor (zeroChunk W)).length = W :=
      foldl_chunkXor_length W _ _ hz (padChunksOf_mem_length W n inp)
    rw [show specParity W n inp (R + 1) =
        (padChunksOf W inp n).foldl chunkXor (zeroChunk W) ++
          specParity W n (inp.drop (n * W)) R from rfl]
    cases r with
    | zero =>
      simp only [Nat.zero_mul, List.drop_zero]
      rw [List.take_left' hS]
    | succ r =>
      rw [show (r + 1) * W = W + r * W by ring, ← List.drop_drop,
        List.drop_left' hS, ih (inp.drop (n * W)) r (by omega), List.drop_drop]
      rw [show n * W + r * (n * W) = (r + 1) * (n * W) by rw [Nat.succ_mul]; omega]

/-- Segment `r` of data slice `i` is round `r`'s padded window for slot
`i`. -/
theorem specData_segment (W n : Nat) :
    ∀ (R : Nat) (inp : List Byte) (r i : Nat), r < R → i < n →
      (((specData W n inp R).getD i []).drop (r * W)).take W =
        padChunk W (inp.drop (r * (n * W) + i * W)) := by
  intro R
  induction R with
  | zero => intro inp r i hr _; exact absurd hr (Nat.not_lt_zero r)
  | succ R ih =>
    intro inp r i hr hi
    rw [show specData W n inp (R + 1) = List.zipWith (fun x y => x ++ y)
        (padChunksOf W inp n) (specData W n (inp.drop (n * W)) R) from rfl]
    rw [zipWith_append_getD _ _ i (by rw [padChunksOf_length]; exact hi)
      (by rw [specData_length]; exact hi)]
    have hclen : ((padChunksOf W inp n).getD i []).length = W := by
      rw [padChunksOf_getD W n inp i hi]
      exact padChunk_length W _
    cases r with
    | zero =>
      simp only [Nat.zero_mul, List.drop_zero, Nat.zero_add]
      rw [List.take_left' hclen, padChunksOf_getD W n inp i hi]
    | succ r =>
      rw [show (r + 1) * W = W + r * W by ring, ← List.drop_drop,
        List.drop_left' hclen, ih (inp.drop (n * W)) r i (by omega) hi,
        List.drop_drop]
      rw [show n * W + (r * (n * W) + i * W) = (r + 1) * (n * W) + i * W by
        rw [Nat.succ_mul]; omega]

/-- C3.  In every encoding produced by `encode_1`, for every round
`r < num_chunks`, the `W`-byte chunk written to the parity slice
(`slices[n]`) in round `r` equals the XOR of the `n` data chunks written to
`slices[0..n)` in round `r`, including the zero-padded chunks of a partial
round. -/
theorem parity_invariant (W n : Nat) (input : List Byte)
    (hW : 1 ≤ W) (hn : 1 ≤ n)
    (p : ida_properties_t) (slices : List (List Byte))
    (henc : encode_1 W n input = .ok (p, slices))
    (r : Nat) (hr : r < p.num_chunks) :
    ((slices.getD n []).drop (r * W)).take W =
      ((List.range n).map fun i => ((slices.getD i []).drop (r * W)).take W).foldl
        chunkXor (zeroChunk W) := by
  have hnW : n * W ≠ 0 := by
    have := Nat.mul_le_mul hn hW
    omega
  rw [encode_1_eq W n input hnW] at henc
  have h2 := Except.ok.inj henc
  injection h2 with hp hs
  subst hp
  subst hs
  rw [getD_concat_of_length _ [] _ n
    (specData_length W n (propsFor W n input).num_chunks input)]
  rw [specParity_segment W n (propsFor W n input).num_chunks input r hr]
  rw [List.map_congr_left
    (g := fun i => padChunk W (input.drop (r * (n * W) + i * W)))
    (fun i himem => by
      rw [List.getD_append _ _ _ _
        (by rw [specData_length]; exact List.mem_range.mp himem)]
      exact specData_segment W n (propsFor W n input).num_chunks input r i hr
        (List.mem_range.mp himem))]
  rw [List.map_congr_left
    (g := fun i => padChunk W ((input.drop (r * (n * W))).drop (i * W)))
    (fun i _ => by
      show padChunk W (input.drop (r * (n * W) + i * W)) =
        padChunk W ((input.drop (r * (n * W))).drop (i * W))
      rw [List.drop_drop, Nat.add_comm (r * (n * W)) (i * W)])]
  rw [range_map_padChunksOf W n (input.drop (r * (n * W)))]

/-- C3, witness: the partial round of the specification's scenario. -/
theorem parity_invariant_witness :
    (1 ≤ 1) ∧ (1 ≤ 2) ∧
    encode_1 1 2 [1, 2, 3, 4, 5] =
      .ok (⟨2, true⟩, [[1, 3, 5], [2, 4, 0], [3, 7, 5]]) ∧
    (2 < (ida_properties_t.mk 2 true).num_chunks) ∧
    (([[1, 3, 5], [2, 4, 0], [3, 7, 5]].getD 2 []).drop (2 * 1)).take 1 =
      ((List.range 2).map fun i =>
        (([[1, 3, 5], [2, 4, 0], [3, 7, 5]].getD i []).drop (2 * 1)).take 1).foldl
        chunkXor (zeroChunk 1) :=
  ⟨by decide, by decide, by decide, by decide,
   parity_invariant 1 2 [1, 2, 3, 4, 5] (by decide) (by decide)
     ⟨2, true⟩ [[1, 3, 5], [2, 4, 0], [3, 7, 5]] (by decide) 2 (by decide)⟩

/-- C6.  In the partial round of `encode_1` each data chunk reads the
available bytes at its offset — `min (remaining) W` of them — zero-pads
them to `W` bytes, and the full `W`-byte padded chunk is written verbatim
to the slice (the slice grows by `W`, the input cursor only by the
available count). -/
theorem partial_round_behaviour (W n : Nat) (input : List Byte)
    (hW : 1 ≤ W) (hn : 1 ≤ n) (hmod : input.length % (n * W) ≠ 0)
    (p : ida_properties_t) (slices : List (List Byte))
    (henc : encode_1 W n input = .ok (p, slices)) :
    p.partial_round = true ∧
    ∀ i, i < n →
      (((slices.getD i []).drop (p.full_rounds * W)).take W =
        (input.drop (p.full_rounds * (n * W) + i * W)).take W ++
          List.replicate
            (W - ((input.drop (p.full_rounds * (n * W) + i * W)).take W).length)
            0) ∧
      (((input.drop (p.full_rounds * (n * W) + i * W)).take W).length =
        min (input.length - (p.full_rounds * (n * W) + i * W)) W) ∧
      ((slices.getD i []).length = (p.full_rounds + 1) * W) := by
  have hnW : n * W ≠ 0 := by
    have := Nat.mul_le_mul hn hW
    omega
  rw [encode_1_eq W n input hnW] at henc
  have h2 := Except.ok.inj henc
  injection h2 with hp hs
  subst hp
  subst hs
  have hpr : (propsFor W n input).partial_round = true := by
    simp [propsFor, hmod]
  have hnum : (propsFor W n input).num_chunks = (propsFor W n input).full_rounds + 1 := by
    simp [ida_properties_t.num_chunks, hpr]
  refine ⟨hpr, ?_⟩
  intro i hi
  have hgd : (specData W n input (propsFor W n input).num_chunks ++
      [specParity W n input (propsFor W n input).num_chunks]).getD i [] =
      (specData W n input (propsFor W n input).num_chunks).getD i [] :=
    List.getD_append _ _ _ _ (by rw [specData_length]; exact hi)
  refine ⟨?_, ?_, ?_⟩
  · rw [hgd, specData_segment W n (propsFor W n input).num_chunks input
      (propsFor W n input).full_rounds i (by omega) hi, padChunk]
    have hcnt : W - ((input.drop ((propsFor W n input).full_rounds * (n * W)
        + i * W)).take W).length =
        W - (input.drop ((propsFor W n input).full_rounds * (n * W)
        + i * W)).length := by
      rw [List.length_take, List.length_drop]
      omega
    rw [hcnt]
  · rw [List.length_take, List.length_drop]
    exact Nat.min_comm _ _
  · rw [hgd, specData_getD_length W n (propsFor W n input).num_chunks input i hi,
      hnum]

/-- C6, witness: the partial round of the specification's scenario. -/
theorem partial_round_behaviour_witness :
    (1 ≤ 1) ∧ (1 ≤ 2) ∧
    ((List.length ([1, 2, 3, 4, 5] : List Byte)) % (2 * 1) ≠ 0) ∧
    encode_1 1 2 [1, 2, 3, 4, 5] =
      .ok (⟨2, true⟩, [[1, 3, 5], [2, 4, 0], [3, 7, 5]]) ∧
    ((ida_properties_t.mk 2 true).partial_round = true ∧
      ∀ i, i < 2 →
        ((([[1, 3, 5], [2, 4, 0], [3, 7, 5]].getD i []).drop
            ((ida_properties_t.mk 2 true).full_rounds * 1)).take 1 =
          (([1, 2, 3, 4, 5] : List Byte).drop
              ((ida_properties_t.mk 2 true).full_rounds * (2 * 1) + i * 1)).take 1 ++
            List.replicate
              (1 - ((([1, 2, 3, 4, 5] : List Byte).drop
                ((ida_properties_t.mk 2 true).full_rounds * (2 * 1) + i * 1)).take
                1).length) 0) ∧
        (((([1, 2, 3, 4, 5] : List Byte).drop
            ((ida_properties_t.mk 2 true).full_rounds * (2 * 1) + i * 1)).take
            1).length =
          min ((List.length ([1, 2, 3, 4, 5] : List Byte)) -
            ((ida_properties_t.mk 2 true).full_rounds * (2 * 1) + i * 1)) 1) ∧
        (([[1, 3, 5], [2, 4, 0], [3, 7, 5]].getD i []).length =
          ((ida_properties_t.mk 2 true).full_rounds + 1) * 1)) :=
  ⟨by decide, by decide, by decide, by decide,
   partial_round_behaviour 1 2 [1, 2, 3, 4, 5] (by decide) (by decide)
     (by decide) ⟨2, true⟩ [[1, 3, 5], [2, 4, 0], [3, 7, 5]] (by decide)⟩

/-! Which errors the decoder can actually produce.  The only failure sites
are the chunk reads, so `nullDeref` and `oobRead` are the only reachable
error values: none of the specification's error classes is ever
reported. -/

theorem error_bind {α β : Type} (e : CodecError)
    (f : α → Except CodecError β) :
    (Except.error e : Except CodecError α) >>= f = .error e := rfl

theorem readChunk_ne_err (W : Nat) (s : Option (List Byte)) (e0 : CodecError)
    (h1 : e0 ≠ .nullDeref) (h2 : e0 ≠ .oobRead) :
    readChunk W s ≠ .error e0 := by
  cases s with
  | none =>
    intro h
    injection h with h'
    exact h1 h'.symm
  | some l =>
    simp only [readChunk]
    split
    · intro h
      injection h with h'
      exact h2 h'.symm
    · intro h
      exact Except.noConfusion h

theorem bind_ne_err {α β : Type} (e : Except CodecError α)
    (f : α → Except CodecError β) (e0 : CodecError)
    (he : e ≠ .error e0) (hf : ∀ a, f a ≠ .error e0) :
    (e >>= f) ≠ .error e0 := by
  cases e with
  | error err =>
    rw [error_bind]
    intro h
    injection h with h'
    rw [h'] at he
    exact he rfl
  | ok a =>
    rw [ok_bind]
    exact hf a

theorem passRound_ne_err (W : Nat) (e0 : CodecError)
    (h1 : e0 ≠ .nullDeref) (h2 : e0 ≠ .oobRead) :
    ∀ (ss : List (Option (List Byte))), passRound W ss ≠ .error e0 := by
  intro ss
  induction ss with
  | nil => exact fun h => Except.noConfusion h
  | cons s rest ih =>
    refine bind_ne_err _ _ e0 (readChunk_ne_err W s e0 h1 h2) (fun c => ?_)
    exact bind_ne_err _ _ e0 ih (fun r h => Except.noConfusion h)

theorem passRounds_ne_err (W : Nat) (e0 : CodecError)
    (h1 : e0 ≠ .nullDeref) (h2 : e0 ≠ .oobRead) :
    ∀ (R : Nat) (ss : List (Option (List Byte))),
      passRounds W R ss ≠ .error e0 := by
  intro R
  induction R with
  | zero => exact fun ss h => Except.noConfusion h
  | succ R ih =>
    intro ss
    refine bind_ne_err _ _ e0 (passRound_ne_err W e0 h1 h2 ss) (fun s => ?_)
    exact bind_ne_err _ _ e0 (ih s.1) (fun t h => Except.noConfusion h)

theorem scanChunks_ne_err (W : Nat) (e0 : CodecError)
    (h1 : e0 ≠ .nullDeref) (h2 : e0 ≠ .oobRead) :
    ∀ (ss : List (Option (List Byte))) (acc : List Byte),
      scanChunks W acc ss ≠ .error e0 := by
  intro ss
  induction ss with
  | nil => exact fun acc h => Except.noConfusion h
  | cons s rest ih =>
    intro acc
    refine bind_ne_err _ _ e0 (readChunk_ne_err W s e0 h1 h2) (fun c => ?_)
    exact bind_ne_err _ _ e0 (ih (chunkXor acc c.1)) (fun r h => Except.noConfusion h)

theorem reconRound_ne_err (W n m : Nat) (e0 : CodecError)
    (h1 : e0 ≠ .nullDeref) (h2 : e0 ≠ .oobRead)
    (slices : List (Option (List Byte))) :
    reconRound W n m slices ≠ .error e0 := by
  rw [reconRound]
  refine bind_ne_err _ _ e0 (readChunk_ne_err W _ e0 h1 h2) (fun pc => ?_)
  refine bind_ne_err _ _ e0 (scanChunks_ne_err W e0 h1 h2 _ pc.1) (fun pre => ?_)
  refine bind_ne_err _ _ e0 (scanChunks_ne_err W e0 h1 h2 _ pre.1) (fun post => ?_)
  exact fun h => Except.noConfusion h

theorem reconRounds_ne_err (W n m : Nat) (e0 : CodecError)
    (h1 : e0 ≠ .nullDeref) (h2 : e0 ≠ .oobRead) :
    ∀ (R : Nat) (ss : List (Option (List Byte))),
      reconRounds W n m R ss ≠ .error e0 := by
  intro R
  induction R with
  | zero => exact fun ss h => Except.noConfusion h
  | succ R ih =>
    intro ss
    refine bind_ne_err _ _ e0 (reconRound_ne_err W n m e0 h1 h2 ss) (fun s => ?_)
    exact bind_ne_err _ _ e0 (ih s.1) (fun t h => Except.noConfusion h)

theorem decode_ne_err (W n : Nat) (slices : List (Option (List Byte)))
    (chunks : Nat) (e0 : CodecError)
    (h1 : e0 ≠ .nullDeref) (h2 : e0 ≠ .oobRead) :
    decode W n slices chunks ≠ .error e0 := by
  rw [decode]
  split
  · refine bind_ne_err _ _ e0 (passRounds_ne_err W e0 h1 h2 chunks _) (fun r => ?_)
    exact fun h => Except.noConfusion h
  · exact reconRounds_ne_err W n _ e0 h1 h2 chunks slices

/-- C7 (amended).  `decode` never reports `MultipleMissingSlices`: the code
only locates the first absent slice, and with more than one absent slice it
goes on to dereference another absent slice (undefined behaviour,
`nullDeref`) instead of detecting the condition. -/
theorem decode_never_multiple_missing (W n : Nat)
    (slices : List (Option (List Byte))) (chunks : Nat) :
    decode W n slices chunks ≠ .error .multipleMissingSlices :=
  decode_ne_err W n slices chunks .multipleMissingSlices
    (by decide) (by decide)

/-- C7, counterexample: with two absent slices (`n = 2`, `W = 1`,
`chunks = 1`) `decode` dereferences the second absent slice instead of
reporting `MultipleMissingSlices`. -/
theorem decode_two_missing_counterexample :
    decode 1 2 [none, none, some [7]] 1 = .error .nullDeref ∧
    decode 1 2 [none, none, some [7]] 1 ≠ .error .multipleMissingSlices := by
  constructor
  · decide
  · decide

/-- C8 (amended).  There is no `InvalidParameter` check: with
`n * W = 0` the properties computation (and hence `encode_1`) reaches the
division by zero — undefined behaviour, modelled `divByZero` — instead of
failing fast with `InvalidParameter`. -/
theorem no_invalid_parameter_check (W n : Nat) (input : List Byte)
    (h : n * W = 0) :
    ida_properties input W n = .error .divByZero ∧
    encode_1 W n input = .error .divByZero := by
  constructor
  · simp [ida_properties, h]
  · rw [encode_1]
    simp [ida_properties, h]

/-- C8 (amended), witness at `n = 0`. -/
theorem no_invalid_parameter_check_witness :
    (0 * 1 = 0) ∧
    (ida_properties [1, 2, 3, 4, 5] 1 0 = .error .divByZero ∧
     encode_1 1 0 [1, 2, 3, 4, 5] = .error .divByZero) :=
  ⟨by decide, no_invalid_parameter_check 1 0 [1, 2, 3, 4, 5] (by decide)⟩

/-- C8, counterexample: with `n = 0` the code divides by zero; it does not
return `InvalidParameter`. -/
theorem no_invalid_parameter_counterexample :
    encode_1 1 0 [1, 2, 3, 4, 5] = .error .divByZero ∧
    encode_1 1 0 [1, 2, 3, 4, 5] ≠ .error .invalidParameter := by
  constructor
  · decide
  · decide

/-- C9 (amended).  There is no `LengthMismatch` check: `decode` never
returns `LengthMismatch`; a present slice shorter than the bytes its role
requires is read past its end — undefined behaviour, modelled `oobRead` —
at the moment of the offending chunk read. -/
theorem no_length_check_oob :
    (∀ (W n chunks : Nat) (slices : List (Option (List Byte))),
      decode W n slices chunks ≠ .error .lengthMismatch) ∧
    (∀ (W n chunks : Nat) (s : List Byte) (rest : List (Option (List Byte))),
      1 ≤ n → 1 ≤ chunks → s.length < W → n ≤ rest.length + 1 →
      (∀ x ∈ rest, x.isNone = false) →
      decode W n (some s :: rest) chunks = .error .oobRead) := by
  constructor
  · intro W n chunks slices
    exact decode_ne_err W n slices chunks .lengthMismatch (by decide) (by decide)
  · intro W n chunks s rest hn hc hs hnr hrest
    have hall : ∀ x ∈ (some s :: rest), x.isNone = false := by
      intro x hx
      rcases List.mem_cons.mp hx with h | h
      · rw [h]; rfl
      · exact hrest x h
    have hfind : (some s :: rest).findIdx (fun x : Option (List Byte) => x.isNone)
        = rest.length + 1 := by
      rw [findIdx_all_some _ hall, List.length_cons]
    obtain ⟨k, rfl⟩ : ∃ k, chunks = k + 1 :=
      ⟨chunks - 1, by omega⟩
    obtain ⟨q, rfl⟩ : ∃ q, n = q + 1 :=
      ⟨n - 1, by omega⟩
    simp only [decode, hfind]
    rw [if_pos hnr]
    rw [List.take_succ_cons]
    simp only [passRounds, passRound, readChunk, if_pos hs, error_bind]

/-- C9, witness for the amended theorem. -/
theorem no_length_check_oob_witness :
    (decode 1 1 [some [], some [5]] 1 ≠ .error .lengthMismatch) ∧
    ((1 ≤ 1) ∧ (1 ≤ 1) ∧ (List.length ([] : List Byte) < 1) ∧
      (1 ≤ List.length [some ([5] : List Byte)] + 1) ∧
      (∀ x ∈ [some ([5] : List Byte)], x.isNone = false) ∧
      decode 1 1 [some [], some [5]] 1 = .error .oobRead) :=
  ⟨no_length_check_oob.1 1 1 1 [some [], some [5]],
   by decide, by decide, by decide, by decide, by decide,
   no_length_check_oob.2 1 1 1 [] [some [5]] (by decide) (by decide)
     (by decide) (by decide) (by decide)⟩

/-- C9, counterexample: a data slice of length `0` with `W = 1` is read out
of bounds; no `LengthMismatch` error is produced before the read. -/
theorem short_slice_counterexample :
    decode 1 1 [some [], some [5]] 1 = .error .oobRead ∧
    decode 1 1 [some [], some [5]] 1 ≠ .error .lengthMismatch := by
  constructor
  · decide
  · decide

theorem getD_set_ne {α : Type} (v d : α) :
    ∀ (l : List α) (i j : Nat), i ≠ j →
      (l.set i v).getD j d = l.getD j d := by
  intro l
  induction l with
  | nil => intro i j _; rw [List.set_nil]
  | cons x xs ih =>
    intro i j hij
    cases i with
    | zero =>
      cases j with
      | zero => exact absurd rfl hij
      | succ j => rw [List.set_cons_zero, List.getD_cons_succ, List.getD_cons_succ]
    | succ i =>
      cases j with
      | zero => rw [List.set_cons_succ, List.getD_cons_zero, List.getD_cons_zero]
      | succ j =>
        rw [List.set_cons_succ, List.getD_cons_succ, List.getD_cons_succ]
        exact ih i j (by omega)

theorem getD_set_self {α : Type} (v d : α) :
    ∀ (l : List α) (i : Nat), i < l.length → (l.set i v).getD i d = v := by
  intro l
  induction l with
  | nil => intro i h; simp at h
  | cons x xs ih =>
    intro i h
    cases i with
    | zero => rfl
    | succ i =>
      rw [List.set_cons_succ, List.getD_cons_succ]
      exact ih i (by simpa using h)

/-- C10.  Cursor mutation: `encode_1` advances every one of the `n + 1`
slice cursors by exactly `num_chunks * W` bytes (the bytes it wrote);
`decode` advances every present slice cursor that it reads by
`chunks * W` bytes, and leaves the parity cursor untouched on the
pass-through path.  The caller cannot reuse the cursor array without
resetting it. -/
theorem pointer_advance (W n : Nat) (input : List Byte)
    (hW : 1 ≤ W) (hn : 1 ≤ n)
    (p : ida_properties_t) (slices : List (List Byte))
    (henc : encode_1 W n input = .ok (p, slices)) :
    (slices.length = n + 1 ∧
      ∀ j, j < n + 1 → (slices.getD j []).length = p.num_chunks * W) ∧
    (∃ cursors out,
      decode W n (slices.map some) p.num_chunks = .ok (cursors, out) ∧
      (∀ j, j < n →
        cursors.getD j none = some ((slices.getD j []).drop (p.num_chunks * W))) ∧
      cursors.getD n none = some (slices.getD n [])) ∧
    (∀ i, i < n → ∃ cursors out,
      decode W n ((slices.map some).set i none) p.num_chunks =
        .ok (cursors, out) ∧
      (∀ j, j < n + 1 → j ≠ i →
        cursors.getD j none = some ((slices.getD j []).drop (p.num_chunks * W))) ∧
      cursors.getD i none = none) := by
  have hnW : n * W ≠ 0 := by
    have := Nat.mul_le_mul hn hW
    omega
  rw [encode_1_eq W n input hnW] at henc
  have h2 := Except.ok.inj henc
  injection h2 with hp hs
  subst hp
  subst hs
  have hDlen : (specData W n input (propsFor W n input).num_chunks).length = n :=
    specData_length W n _ input
  have hgdn : (specData W n input (propsFor W n input).num_chunks ++
      [specParity W n input (propsFor W n input).num_chunks]).getD n [] =
      specParity W n input (propsFor W n input).num_chunks :=
    getD_concat_of_length _ [] _ n hDlen
  have hPlen : (specParity W n input (propsFor W n input).num_chunks).length =
      (propsFor W n input).num_chunks * W := specParity_length W n _ input
  have hgdi : ∀ j, j < n →
      (specData W n input (propsFor W n input).num_chunks ++
        [specParity W n input (propsFor W n input).num_chunks]).getD j [] =
      (specData W n input (propsFor W n input).num_chunks).getD j [] :=
    fun j hj => List.getD_append _ _ _ _ (by rw [hDlen]; exact hj)
  have hdropj : ∀ j, j < n →
      ((specData W n input (propsFor W n input).num_chunks ++
        [specParity W n input (propsFor W n input).num_chunks]).getD j []).drop
        ((propsFor W n input).num_chunks * W) = [] := by
    intro j hj
    rw [hgdi j hj]
    exact List.drop_eq_nil_of_le
      (le_of_eq (specData_getD_length W n _ input j hj))
  refine ⟨⟨?_, ?_⟩, ?_, ?_⟩
  · rw [List.length_append, hDlen, List.length_singleton]
  · intro j hj
    rcases Nat.lt_or_ge j n with h | h
    · rw [hgdi j h]
      exact specData_getD_length W n _ input j h
    · have hj' : j = n := by omega
      subst hj'
      rw [hgdn]
      exact hPlen
  · rw [List.map_append, List.map_cons, List.map_nil]
    refine ⟨_, _, by
      have := decode_pass_spec W n (propsFor W n input).num_chunks input
      rw [List.map_append, List.map_cons, List.map_nil] at this
      exact this, ?_, ?_⟩
    · intro j hj
      rw [List.getD_append _ _ _ _ (by rw [List.length_replicate]; exact hj),
        getD_replicate _ _ n j hj, hdropj j hj]
    · rw [getD_concat_of_length _ none _ n (List.length_replicate n _), hgdn]
  · intro i hi
    refine ⟨_, _, decode_recon_spec W n i (propsFor W n input).num_chunks input hi,
      ?_, ?_⟩
    · intro j hj hji
      have hsetlen : ((List.replicate n (some ([] : List Byte))).set i none).length
          = n := by
        rw [List.length_set, List.length_replicate]
      rcases Nat.lt_or_ge j n with h | h
      · rw [List.getD_append _ _ _ _ (by rw [hsetlen]; exact h),
          getD_set_ne _ _ _ i j (fun hc => hji hc.symm),
          getD_replicate _ _ n j h, hdropj j h]
      · have hj' : j = n := by omega
        subst hj'
        rw [getD_concat_of_length _ none _ _ hsetlen, hgdn]
        rw [List.drop_eq_nil_of_le (le_of_eq hPlen)]
    · rw [List.getD_append _ _ _ _
        (by rw [List.length_set, List.length_replicate]; exact hi)]
      exact getD_set_self _ _ _ i (by rw [List.length_replicate]; exact hi)

/-- C10, witness: the specification's scenario, all three parts. -/
theorem pointer_advance_witness :
    (1 ≤ 1) ∧ (1 ≤ 2) ∧
    encode_1 1 2 [1, 2, 3, 4, 5] =
      .ok (⟨2, true⟩, [[1, 3, 5], [2, 4, 0], [3, 7, 5]]) ∧
    (([[1, 3, 5], [2, 4, 0], [3, 7, 5]] : List (List Byte)).length = 2 + 1 ∧
      ∀ j, j < 2 + 1 →
        (([[1, 3, 5], [2, 4, 0], [3, 7, 5]].getD j []).length =
          (ida_properties_t.mk 2 true).num_chunks * 1)) ∧
    (∃ cursors out,
      decode 1 2 ([[1, 3, 5], [2, 4, 0], [3, 7, 5]].map some)
        (ida_properties_t.mk 2 true).num_chunks = .ok (cursors, out) ∧
      (∀ j, j < 2 →
        cursors.getD j none = some (([[1, 3, 5], [2, 4, 0], [3, 7, 5]].getD j
          []).drop ((ida_properties_t.mk 2 true).num_chunks * 1))) ∧
      cursors.getD 2 none = some ([[1, 3, 5], [2, 4, 0], [3, 7, 5]].getD 2 [])) ∧
    (∀ i, i < 2 → ∃ cursors out,
      decode 1 2 (([[1, 3, 5], [2, 4, 0], [3, 7, 5]].map some).set i none)
        (ida_properties_t.mk 2 true).num_chunks = .ok (cursors, out) ∧
      (∀ j, j < 2 + 1 → j ≠ i →
        cursors.getD j none = some (([[1, 3, 5], [2, 4, 0], [3, 7, 5]].getD j
          []).drop ((ida_properties_t.mk 2 true).num_chunks * 1))) ∧
      cursors.getD i none = none) := by
  refine ⟨by decide, by decide, by decide, ?_⟩
  exact pointer_advance 1 2 [1, 2, 3, 4, 5] (by decide) (by decide)
    ⟨2, true⟩ [[1, 3, 5], [2, 4, 0], [3, 7, 5]] (by decide)

end Parity
